import Mathlib

/-!
Verification of `scripts/overlay_symbols.py` from the tridentine_calendar
repository: the Gregorian Easter computus, dates derived from it (Ash
Wednesday, Pentecost, Holy Saturday, ember days, vigil days), the
penitential-rule cascade, the title normalization and the symbol-prefix
rendering.

Dates are modelled as (year, month, day) triples over `Nat`, together with a
Rata Die day-number conversion (day 1 = January 1 of year 1 in the proleptic
Gregorian calendar, a Monday) used for date comparison, date arithmetic
(Python's `timedelta`) and for the weekday in Python's convention
(Monday = 0, ..., Sunday = 6).  Python sets of `date` objects are modelled
as `Finset ℕ` of day numbers, which agrees with Python because the day
number is injective on valid dates.  Python strings are modelled as
`List Char`; `str.strip` and the anchored symbol-stripping regex
`^\s*(✝️|⛔|🐟|\s)+\s*` are modelled by recursive functions on the
character list (the regex removes exactly the maximal leading run of
marker-symbol sequences and whitespace characters, since it is anchored,
greedy, and nothing follows the starred groups).
-/

namespace Overlay

/-- A calendar date, mirroring Python's `datetime.date` value `(year, month, day)`. -/
structure Date where
  year : Nat
  month : Nat
  day : Nat
deriving DecidableEq, Repr

/-- Gregorian leap-year test (proleptic), as used by `datetime.date`. -/
def isLeap (y : Nat) : Bool :=
  (y % 4 == 0 && y % 100 != 0) || y % 400 == 0

/-- Days in the months of a year strictly before month `m` (month 1 = January). -/
def daysBeforeMonth (leap : Bool) (m : Nat) : Nat :=
  (match m with
   | 1 => 0 | 2 => 31 | 3 => 59 | 4 => 90 | 5 => 120 | 6 => 151
   | 7 => 181 | 8 => 212 | 9 => 243 | 10 => 273 | 11 => 304 | _ => 334)
  + (if leap && m ≥ 3 then 1 else 0)

/-- Number of days in month `m` of a year with leap flag `leap`. -/
def daysInMonth (leap : Bool) (m : Nat) : Nat :=
  match m with
  | 2 => if leap then 29 else 28
  | 4 | 6 | 9 | 11 => 30
  | _ => 31

/-- A valid `datetime.date` triple: the constructor `date(y, m, d)` accepts
exactly these (up to Python's year-9999 bound, irrelevant here). -/
def Date.valid (dt : Date) : Prop :=
  1 ≤ dt.year ∧ 1 ≤ dt.month ∧ dt.month ≤ 12 ∧
    1 ≤ dt.day ∧ dt.day ≤ daysInMonth (isLeap dt.year) dt.month

instance (dt : Date) : Decidable dt.valid := by
  unfold Date.valid; infer_instance

/-- Rata Die day number of a date: day 1 is January 1 of year 1. -/
def toDN (dt : Date) : Nat :=
  365 * (dt.year - 1) + (dt.year - 1) / 4 - (dt.year - 1) / 100
    + (dt.year - 1) / 400 + daysBeforeMonth (isLeap dt.year) dt.month + dt.day

/-- Python's `date.weekday()` on a day number: Monday = 0, ..., Sunday = 6.
(Day number 1, January 1 of year 1 proleptic Gregorian, is a Monday.) -/
def weekdayDN (dn : Nat) : Nat := (dn + 6) % 7

/-- `easter_gregorian`: the anonymous Gregorian computus
(Meeus/Jones/Butcher), transcribed from the source.  All intermediate
quantities are non-negative for every `y : Nat`, so `Nat` division and
remainder agree with Python's floor division and modulo here. -/
def easter_gregorian (y : Nat) : Date :=
  let a := y % 19
  let b := y / 100
  let c := y % 100
  let d := b / 4
  let e := b % 4
  let f := (b + 8) / 25
  let g := (b - f + 1) / 3
  let h := (19 * a + b - d - g + 15) % 30
  let i := c / 4
  let k := c % 4
  let l := (32 + 2 * e + 2 * i - h - k) % 7
  let m := (a + 11 * h + 22 * l) / 451
  let month := (h + l - 7 * m + 114) / 31
  let day := ((h + l - 7 * m + 114) % 31) + 1
  ⟨y, month, day⟩

/-- Day number of Easter of year `y`. -/
def easterDN (y : Nat) : Nat := toDN (easter_gregorian y)

/-- `is_sunday`: `d.weekday() == 6`. -/
def is_sunday (dt : Date) : Bool := weekdayDN (toDN dt) == 6

/-- `is_friday`: `d.weekday() == 4`. -/
def is_friday (dt : Date) : Bool := weekdayDN (toDN dt) == 4

/-- `ash_wednesday`: Easter − 46 days (as a day number). -/
def ash_wednesday (y : Nat) : Nat := easterDN y - 46

/-- `pentecost_sunday`: Easter + 49 days (as a day number). -/
def pentecost_sunday (y : Nat) : Nat := easterDN y + 49

/-- The Holy Saturday bound used by `penitential_marks`: Easter − 1 day. -/
def holy_saturday (y : Nat) : Nat := easterDN y - 1

/-- `ember_days`: the four ember-day clusters of year `y`, as a set of day
numbers, transcribed from the source (Advent, Lent, Pentecost, September
clusters, in source order).  Python's `(2 - weekday) % 7` and
`(6 - weekday) % 7` are floor modulo of a possibly negative number; with
`weekday ∈ [0, 6]` they equal `(9 - weekday) % 7` and `(13 - weekday) % 7`
over `Nat`. -/
def ember_days (y : Nat) : Finset ℕ :=
  let dec13 := toDN ⟨y, 12, 13⟩
  let wd := dec13 + (9 - weekdayDN dec13) % 7
  let aw := ash_wednesday y
  let first_lent_sun := aw + (13 - weekdayDN aw) % 7
  let wed_after := first_lent_sun + 3
  let p := pentecost_sunday y
  let wedp := p + 3
  let sept1 := toDN ⟨y, 9, 1⟩
  let first_sun := sept1 + (13 - weekdayDN sept1) % 7
  let third_sun := first_sun + 14
  let weds := third_sun + 3
  ({wd, wd + 2, wd + 3} : Finset ℕ) ∪ {wed_after, wed_after + 2, wed_after + 3}
    ∪ {wedp, wedp + 2, wedp + 3} ∪ {weds, weds + 2, weds + 3}

/-- `vigil_days`: the five traditional vigils of year `y`, as a set of day
numbers, transcribed from the source. -/
def vigil_days (y : Nat) : Finset ℕ :=
  let p := pentecost_sunday y
  ({toDN ⟨y, 12, 24⟩, toDN ⟨y, 8, 14⟩, toDN ⟨y, 10, 31⟩, p - 1,
    toDN ⟨y, 6, 28⟩} : Finset ℕ)

/-- `penitential_marks`: returns `(fast, abstinence)` for a date, transcribed
from the source's rule cascade. -/
def penitential_marks (dt : Date) : Bool × Bool :=
  let y := dt.year
  let aw := ash_wednesday y
  let hs := holy_saturday y
  let dn := toDN dt
  let in_lent_window := aw ≤ dn ∧ dn ≤ hs
  let embers := ember_days y
  let vigils := vigil_days y
  let abst := false
  let fast := false
  let abst := if is_friday dt then true else abst
  let fast := if in_lent_window ∧ is_sunday dt = false then true else fast
  let abst := if in_lent_window ∧ is_sunday dt = false then true else abst
  let fast := if dn ∈ embers ∧ is_sunday dt = false then true else fast
  let abst := if dn ∈ embers ∧ is_sunday dt = false then true else abst
  let fast := if dn ∈ vigils ∧ is_sunday dt = false then true else fast
  let abst := if dn ∈ vigils ∧ is_sunday dt = false then true else abst
  (fast, abst)

/-! ### String layer: summary normalization and prefix rendering -/

/-- Python whitespace characters (the ASCII ones; the titles involved contain
no exotic Unicode whitespace). -/
def isPySpace (c : Char) : Bool :=
  c == ' ' || c == '\t' || c == '\n' || c == '\r' || c == '\x0b' || c == '\x0c'

/-- `SYM_HOLYDAY = "✝️"` (two code points: U+271D U+FE0F). -/
def SYM_HOLYDAY : List Char := ['✝', '\uFE0F']

/-- `SYM_FAST = "⛔"`. -/
def SYM_FAST : List Char := ['⛔']

/-- `SYM_ABST = "🐟"`. -/
def SYM_ABST : List Char := ['🐟']

/-- Drop trailing Python-whitespace characters (the right half of `str.strip`). -/
def stripR : List Char → List Char
  | [] => []
  | c :: rest =>
    match stripR rest with
    | [] => if isPySpace c then [] else [c]
    | r => c :: r

/-- Python's `str.strip()`: drop leading and trailing whitespace. -/
def pyStrip (l : List Char) : List Char := stripR (l.dropWhile isPySpace)

/-- The effect of `SYM_STRIP_RE.sub("", s)`: remove the maximal leading run
of marker symbols and whitespace characters (the regex
`^\s*(✝️|⛔|🐟|\s)+\s*` is anchored and greedy, with whitespace among the
repeated alternatives, so it matches exactly that run, or nothing). -/
def dropTokens : List Char → List Char
  | '✝' :: '\uFE0F' :: rest => dropTokens rest
  | '⛔' :: rest => dropTokens rest
  | '🐟' :: rest => dropTokens rest
  | c :: rest => if isPySpace c then dropTokens rest else c :: rest
  | [] => []

/-- `strip_existing_symbols`: `s.strip()`, then the regex removal, then
`.strip()` again. -/
def strip_existing_symbols (s : List Char) : List Char :=
  pyStrip (dropTokens (pyStrip s))

/-- Python's `s.lstrip("›»")`. -/
def lstripMarks (l : List Char) : List Char :=
  l.dropWhile (fun c => c == '›' || c == '»')

/-- Python's `re.sub(r"\s+", " ", s)`: every maximal whitespace run becomes
one space. -/
def collapseWs : List Char → List Char
  | [] => []
  | [c] => if isPySpace c then [' '] else [c]
  | c :: c' :: rest =>
    if isPySpace c && isPySpace c' then collapseWs (c' :: rest)
    else (if isPySpace c then ' ' else c) :: collapseWs (c' :: rest)

/-- `normalize_title`: strip, remove leading symbols, strip, drop leading
`›`/`»` markers, strip, collapse whitespace, lowercase. -/
def normalize_title (s : List Char) : List Char :=
  (collapseWs (pyStrip (lstripMarks (strip_existing_symbols s)))).map Char.toLower

/-- `HOLY_DAYS_1962_TITLES`: the fixed normalized holy-day title set. -/
def HOLY_DAYS_1962_TITLES : List (List Char) :=
  ["circumcision of our lord".toList,
   "epiphany of our lord".toList,
   "the epiphany of our lord".toList,
   "st joseph spouse of the blessed virgin mary".toList,
   "st joseph".toList,
   "st. joseph".toList,
   "ascension of our lord".toList,
   "the ascension of our lord".toList,
   "corpus christi".toList,
   "ss peter and paul apostles".toList,
   "ss. peter and paul".toList,
   "saints peter and paul".toList,
   "st. peter and st. paul".toList,
   "st peter and st paul".toList,
   "assumption of the blessed virgin mary".toList,
   "the assumption of the blessed virgin mary".toList,
   "assumption".toList,
   "all saints".toList,
   "all saints day".toList,
   "immaculate conception of the blessed virgin mary".toList,
   "the immaculate conception".toList,
   "immaculate conception".toList,
   "nativity of our lord".toList,
   "christmas".toList]

/-- `build_prefix`: accumulate the marker symbols of the true flags, in the
fixed order holy day, fast, abstinence. -/
def build_prefix (is_holy is_fast is_abst : Bool) : List Char :=
  let p : List Char := []
  let p := if is_holy then p ++ SYM_HOLYDAY else p
  let p := if is_fast then p ++ SYM_FAST else p
  let p := if is_abst then p ++ SYM_ABST else p
  p

/-- The per-event classification slice of `main` (lines 252–265): normalize
the raw SUMMARY, look it up in the holy-day set, optionally mark Sundays holy
(the `MARK_SUNDAYS_AS_HOLY` switch is the first argument; the source sets it
to `False`), compute the penitential marks, and apply the holy-day override. -/
def classifyEvent (markSundaysAsHoly : Bool) (dt : Date) (raw : List Char) :
    Bool × Bool × Bool :=
  let summary := pyStrip raw
  let match_key := normalize_title summary
  let is_holy : Bool := decide (match_key ∈ HOLY_DAYS_1962_TITLES)
  let is_holy := if markSundaysAsHoly && is_sunday dt then true else is_holy
  let fa := penitential_marks dt
  let fast := if is_holy then false else fa.1
  let abst := if is_holy then false else fa.2
  (is_holy, fast, abst)

/-- The rewritten SUMMARY produced by `main` (lines 252–271): the rendered
prefix, a separating space when the prefix is nonempty, and the
symbol-stripped base title. -/
def processSummary (markSundaysAsHoly : Bool) (dt : Date) (raw : List Char) :
    List Char :=
  let summary := pyStrip raw
  let base := strip_existing_symbols summary
  let t := classifyEvent markSundaysAsHoly dt raw
  let px := build_prefix t.1 t.2.1 t.2.2
  if px = [] then base else px ++ ' ' :: base

/-! ### Specification-side definitions (used only to compare against the
source-derived definitions above) -/

/-- Modelled from the spec's rule list for `classify` (rules 1–4): the
penitential flags as a flat OR-combination of the four obligation sources. -/
def marksSpec (dt : Date) : Bool × Bool :=
  let y := dt.year
  let dn := toDN dt
  let lent : Bool := decide (ash_wednesday y ≤ dn ∧ dn ≤ holy_saturday y)
  let notSun : Bool := ! is_sunday dt
  let ember : Bool := decide (dn ∈ ember_days y)
  let vigil : Bool := decide (dn ∈ vigil_days y)
  ((lent && notSun) || (ember && notSun) || (vigil && notSun),
   is_friday dt || (lent && notSun) || (ember && notSun) || (vigil && notSun))

/-- Modelled from the spec's rendering description: concatenation, in fixed
order, of exactly the markers whose flag is true. -/
def buildPrefixSpec (is_holy is_fast is_abst : Bool) : List Char :=
  (if is_holy then SYM_HOLYDAY else []) ++ (if is_fast then SYM_FAST else [])
    ++ (if is_abst then SYM_ABST else [])

/-- The least offset `k` such that `dn + k` falls on weekday `w % 7`
("the first such weekday on or after `dn`"). -/
def nextWeekdayOffset (w dn : Nat) : Nat :=
  Nat.find (p := fun k => weekdayDN (dn + k) = w % 7)
    ⟨(w % 7 + 7 - (dn + 6) % 7) % 7, by simp only [weekdayDN]; omega⟩

/-- Modelled from the spec's description of the ember-day clusters: Advent is
the first Wednesday on or after December 13 (plus 2, plus 3); Lent is the
first Sunday of Lent (Ash Wednesday plus the floor-modulo offset
`(6 − weekday) mod 7`, Sunday = 6) plus 3, 5, 6; Pentecost is Pentecost
Sunday plus 3, 5, 6; September is the first Sunday of September plus 14,
then plus 3, 5, 6. -/
def emberSpec (y : Nat) : Finset ℕ :=
  let dec13 := toDN ⟨y, 12, 13⟩
  let adventWed := dec13 + nextWeekdayOffset 2 dec13
  let aw := ash_wednesday y
  let firstLentSun := aw + ((6 - (weekdayDN aw : Int)) % 7).toNat
  let p := pentecost_sunday y
  let sept1 := toDN ⟨y, 9, 1⟩
  let firstSeptSun := sept1 + nextWeekdayOffset 6 sept1
  let thirdSeptSun := firstSeptSun + 14
  ({adventWed, adventWed + 2, adventWed + 3} : Finset ℕ)
    ∪ {firstLentSun + 3, firstLentSun + 5, firstLentSun + 6}
    ∪ {p + 3, p + 5, p + 6}
    ∪ {thirdSeptSun + 3, thirdSeptSun + 5, thirdSeptSun + 6}

/-! ### Proof-side helper definitions -/

/-- The computus value `h + l - 7*m + 114`, whose quotient and remainder by
31 are the month and (day − 1) of Easter. -/
def V (y : Nat) : Nat :=
  let a := y % 19
  let b := y / 100
  let c := y % 100
  let d := b / 4
  let e := b % 4
  let f := (b + 8) / 25
  let g := (b - f + 1) / 3
  let h := (19 * a + b - d - g + 15) % 30
  let i := c / 4
  let k := c % 4
  let l := (32 + 2 * e + 2 * i - h - k) % 7
  let m := (a + 11 * h + 22 * l) / 451
  h + l - 7 * m + 114

/-- Day number of December 31 of year `y - 1`: the common base of all day
numbers of year `y`. -/
def yB (y : Nat) : Nat :=
  365 * (y - 1) + (y - 1) / 4 - (y - 1) / 100 + (y - 1) / 400

/-- The year-dependent part of the Easter weekday congruence. -/
def wq (y : Nat) : Nat :=
  yB y + (if isLeap y then 1 else 0)
    + (32 + 2 * ((y / 100) % 4) + 2 * ((y % 100) / 4) + 6 * ((y % 100) % 4) + 2)

/-- Whether a character list starts with the variation selector U+FE0F
(the second code point of the holy-day marker). -/
def headIsFE0F (l : List Char) : Bool :=
  match l with
  | c :: _ => c == '\uFE0F'
  | [] => false

/-- Whether a character list does not start with any token of the
symbol-stripping regex (a marker symbol or a whitespace character), so that
`dropTokens` leaves it unchanged. -/
def headTokenFree (l : List Char) : Bool :=
  match l with
  | [] => true
  | c :: rest =>
    ! isPySpace c && ! (c == '⛔') && ! (c == '🐟') && ! (c == '✝' && headIsFE0F rest)

/-- Whether a character list does not end with a whitespace character, so
that right-stripping leaves it unchanged. -/
def lastNotSpace : List Char → Bool
  | [] => true
  | [c] => ! isPySpace c
  | _ :: rest => lastNotSpace rest

end Overlay

namespace Overlay

/-! ### Computus helper lemmas -/

theorem easter_eq_V (y : Nat) :
    easter_gregorian y = ⟨y, V y / 31, V y % 31 + 1⟩ := rfl

theorem V_bounds (y : Nat) : 107 ≤ V y ∧ V y ≤ 149 := by
  simp only [V]; omega

theorem toDN_mk (y m d : Nat) :
    toDN ⟨y, m, d⟩ = yB y + daysBeforeMonth (isLeap y) m + d := rfl

theorem easterDN_eq (y : Nat) :
    easterDN y = yB y + (if isLeap y then 1 else 0) + V y - 33 := by
  have hv := V_bounds y
  rw [easterDN, easter_eq_V]
  have hm : V y / 31 = 3 ∨ V y / 31 = 4 := by omega
  rcases hm with hm | hm <;>
    simp only [toDN, yB, daysBeforeMonth, hm] <;>
    rcases Bool.eq_false_or_eq_true (isLeap y) with hl | hl <;> simp [hl] <;> omega

theorem V_mod7 (y : Nat) :
    V y % 7 = (32 + 2 * ((y / 100) % 4) + 2 * ((y % 100) / 4)
      + 6 * ((y % 100) % 4) + 2) % 7 := by
  simp only [V]
  omega

theorem wq_periodic (y : Nat) (hy : 1 ≤ y) : wq (y + 400) % 7 = wq y % 7 := by
  have h1 : yB (y + 400) = yB y + 146097 := by
    simp only [yB]; omega
  have e4 : (y + 400) % 4 = y % 4 := by omega
  have e100 : (y + 400) % 100 = y % 100 := by omega
  have e400 : (y + 400) % 400 = y % 400 := by omega
  have h2 : isLeap (y + 400) = isLeap y := by
    simp only [isLeap, e4, e100, e400]
  have h3 : (y + 400) / 100 % 4 = y / 100 % 4 := by omega
  simp only [wq, h1, h2, h3, e100]
  omega

set_option maxRecDepth 8000 in
theorem wq_base : ∀ y, y < 400 → wq (y + 1) % 7 = 5 := by decide

theorem wq_mod7 (y : Nat) (hy : 1 ≤ y) : wq y % 7 = 5 := by
  induction y using Nat.strong_induction_on with
  | _ y ih =>
    by_cases h : y ≤ 400
    · have := wq_base (y - 1) (by omega)
      have hy1 : y - 1 + 1 = y := by omega
      rwa [hy1] at this
    · have h2 := ih (y - 400) (by omega) (by omega)
      have h3 := wq_periodic (y - 400) (by omega)
      have hy1 : y - 400 + 400 = y := by omega
      rw [hy1] at h3
      omega

theorem easterDN_mod7 (y : Nat) (hy : 1 ≤ y) : easterDN y % 7 = 0 := by
  have h1 := easterDN_eq y
  have h2 := V_mod7 y
  have h3 := wq_mod7 y hy
  have h4 := V_bounds y
  simp only [wq, yB] at *
  omega

theorem easter_is_sunday (y : Nat) (hy : 1 ≤ y) : weekdayDN (easterDN y) = 6 := by
  have := easterDN_mod7 y hy
  simp only [weekdayDN]
  omega

/-! ### Claims -/

/-- C2: for every year `y`, `ash_wednesday y` is Easter minus 46 days,
`pentecost_sunday y` is Easter plus 49 days, and the Holy Saturday bound
used by the classifier is Easter minus 1 day; concretely, Easter 2024 is
March 31, 2024 and Ash Wednesday 2024 is February 14, 2024. -/
theorem c2_derived_dates :
    (∀ y : Nat, ash_wednesday y = easterDN y - 46
      ∧ pentecost_sunday y = easterDN y + 49
      ∧ holy_saturday y = easterDN y - 1)
    ∧ easter_gregorian 2024 = ⟨2024, 3, 31⟩
    ∧ ash_wednesday 2024 = toDN ⟨2024, 2, 14⟩ := by
  refine ⟨fun y => ⟨rfl, rfl, rfl⟩, by decide, by decide⟩

/-- C7: for every positive year, `easter_gregorian` returns a valid calendar
date whose month is 3 or 4 and whose day is within that month's range, so
the `date` constructor cannot fail. -/
theorem c7_easter_always_valid (y : Nat) (hy : 1 ≤ y) :
    ((easter_gregorian y).month = 3 ∨ (easter_gregorian y).month = 4)
      ∧ (easter_gregorian y).valid := by
  have hv := V_bounds y
  rw [easter_eq_V]
  have hm : V y / 31 = 3 ∨ V y / 31 = 4 := by omega
  constructor
  · exact hm
  · have d3 : daysInMonth (isLeap y) 3 = 31 := rfl
    have d4 : daysInMonth (isLeap y) 4 = 30 := rfl
    rcases hm with hm | hm <;>
      simp only [Date.valid, hm, d3, d4] <;>
      exact ⟨hy, by omega, by omega, by omega, by omega⟩

/-- C3: whenever the final classification marks a date holy, both
penitential flags are false — the holy-day override runs last and resets
them unconditionally, including when the Sunday-as-holy switch is the
reason the date is holy. -/
theorem c3_holy_day_precedence (ms : Bool) (dt : Date) (raw : List Char)
    (h : (classifyEvent ms dt raw).1 = true) :
    (classifyEvent ms dt raw).2.1 = false ∧ (classifyEvent ms dt raw).2.2 = false := by
  simp only [classifyEvent] at h ⊢
  rw [h]
  simp

/-- C10: a fast day is always also an abstinence day, both at the
`penitential_marks` level and after the holy-day override in the final
classification. -/
theorem c10_fast_implies_abstinence (ms : Bool) (dt : Date) (raw : List Char) :
    ((penitential_marks dt).1 = true → (penitential_marks dt).2 = true)
    ∧ ((classifyEvent ms dt raw).2.1 = true → (classifyEvent ms dt raw).2.2 = true) := by
  constructor
  · simp only [penitential_marks]
    split_ifs <;> simp
  · simp only [classifyEvent, penitential_marks]
    split_ifs <;> simp

end Overlay

namespace Overlay

theorem toDN_fixed (y m d c : Nat) (h0 : daysBeforeMonth false m = c)
    (h1 : daysBeforeMonth true m = c + 1) :
    toDN ⟨y, m, d⟩ = yB y + (if isLeap y then 1 else 0) + c + d := by
  cases hb : isLeap y <;> rw [toDN_mk, hb] <;> simp [h0, h1] <;> omega

theorem card_triple (a b c : ℕ) (h1 : a ≠ b) (h2 : a ≠ c) (h3 : b ≠ c) :
    ({a, b, c} : Finset ℕ).card = 3 := by
  rw [Finset.card_insert_of_not_mem (by simp [h1, h2]),
    Finset.card_insert_of_not_mem (by simp [h3]), Finset.card_singleton]

theorem card_five (a b c d e : ℕ)
    (h1 : a ≠ b) (h2 : a ≠ c) (h3 : a ≠ d) (h4 : a ≠ e)
    (h5 : b ≠ c) (h6 : b ≠ d) (h7 : b ≠ e)
    (h8 : c ≠ d) (h9 : c ≠ e) (h10 : d ≠ e) :
    ({a, b, c, d, e} : Finset ℕ).card = 5 := by
  rw [Finset.card_insert_of_not_mem (by simp [h1, h2, h3, h4]),
    Finset.card_insert_of_not_mem (by simp [h5, h6, h7]),
    Finset.card_insert_of_not_mem (by simp [h8, h9]),
    Finset.card_insert_of_not_mem (by simp [h10]), Finset.card_singleton]

/-- C4: `penitential_marks` is exactly the OR-combination of the four
monotonic penitential rules (Friday abstinence, Lenten window, ember days,
vigils, each suppressed on Sundays except the Friday rule), and every
Friday not overridden by the holy-day flag is an abstinence day. -/
theorem c4_marks_or_combination (dt : Date) :
    penitential_marks dt = marksSpec dt
    ∧ (is_friday dt = true → (penitential_marks dt).2 = true)
    ∧ (∀ (ms : Bool) (raw : List Char), is_friday dt = true →
        (classifyEvent ms dt raw).1 = false →
        (classifyEvent ms dt raw).2.2 = true) := by
  refine ⟨?_, ?_, ?_⟩
  · simp only [penitential_marks, marksSpec]
    split_ifs <;> simp_all
  · intro hf
    simp only [penitential_marks]
    split_ifs <;> simp_all
  · intro ms raw hf hh
    simp only [classifyEvent] at hh ⊢
    rw [hh]
    simp only [Bool.false_eq_true, if_false]
    simp only [penitential_marks]
    split_ifs <;> simp_all

set_option maxRecDepth 8000 in
/-- C1: for every year from 1900 to 2100, Easter falls between March 22 and
April 25 inclusive, in that same year, and always on a Sunday
(`weekday() == 6`). -/
theorem c1_easter_window (y : Nat) (h1 : 1900 ≤ y) (h2 : y ≤ 2100) :
    (easter_gregorian y).year = y
    ∧ (((easter_gregorian y).month = 3 ∧ 22 ≤ (easter_gregorian y).day)
        ∨ ((easter_gregorian y).month = 4 ∧ (easter_gregorian y).day ≤ 25))
    ∧ weekdayDN (toDN (easter_gregorian y)) = 6 := by
  have hv := V_bounds y
  have key : ∀ i : Nat, i < 201 → 114 ≤ V (1900 + i) ∧ V (1900 + i) ≤ 148 := by decide
  have hk := key (y - 1900) (by omega)
  have hy : 1900 + (y - 1900) = y := by omega
  rw [hy] at hk
  rw [easter_eq_V]
  have hmo : (⟨y, V y / 31, V y % 31 + 1⟩ : Date).month = V y / 31 := rfl
  have hda : (⟨y, V y / 31, V y % 31 + 1⟩ : Date).day = V y % 31 + 1 := rfl
  refine ⟨rfl, ?_, ?_⟩
  · rw [hmo, hda]
    omega
  · rw [← easter_eq_V]
    exact easter_is_sunday y (by omega)

/-- C6: `vigil_days y` is exactly the five listed vigils (Christmas,
Assumption, All Saints, Pentecost, Ss. Peter and Paul), the five dates are
pairwise distinct so the set has exactly 5 elements, and the Pentecost vigil
always falls on a Saturday. -/
theorem c6_vigils (y : Nat) (hy : 1 ≤ y) :
    vigil_days y = ({toDN ⟨y, 12, 24⟩, toDN ⟨y, 8, 14⟩, toDN ⟨y, 10, 31⟩,
        pentecost_sunday y - 1, toDN ⟨y, 6, 28⟩} : Finset ℕ)
    ∧ (vigil_days y).card = 5
    ∧ weekdayDN (pentecost_sunday y - 1) = 5 := by
  have h24 := toDN_fixed y 12 24 334 rfl rfl
  have h14 := toDN_fixed y 8 14 212 rfl rfl
  have h31 := toDN_fixed y 10 31 273 rfl rfl
  have h28 := toDN_fixed y 6 28 151 rfl rfl
  have he := easterDN_eq y
  have hv := V_bounds y
  have hp : pentecost_sunday y - 1 = easterDN y + 48 := by
    simp only [pentecost_sunday]; omega
  have hm7 := easterDN_mod7 y hy
  refine ⟨rfl, ?_, ?_⟩
  · simp only [vigil_days]
    exact card_five _ _ _ _ _ (by omega) (by omega) (by omega) (by omega)
      (by omega) (by omega) (by omega) (by omega) (by omega) (by omega)
  · simp only [weekdayDN]
    omega

/-- C9: the rendered prefix is the concatenation, in the fixed order holy
day, fast, abstinence, of exactly the markers whose flags are true; when the
prefix is nonempty, exactly one space separates it from the base title; and
the triple (true, false, false) renders the base title prefixed by the
holy-day marker and a space. -/
theorem c9_prefix_rendering :
    (∀ h f a : Bool, build_prefix h f a = buildPrefixSpec h f a)
    ∧ build_prefix true false false = SYM_HOLYDAY
    ∧ (∀ (ms : Bool) (dt : Date) (raw : List Char),
        build_prefix (classifyEvent ms dt raw).1 (classifyEvent ms dt raw).2.1
            (classifyEvent ms dt raw).2.2 ≠ [] →
        processSummary ms dt raw
          = build_prefix (classifyEvent ms dt raw).1 (classifyEvent ms dt raw).2.1
              (classifyEvent ms dt raw).2.2
            ++ ' ' :: strip_existing_symbols (pyStrip raw))
    ∧ (∀ (ms : Bool) (dt : Date) (raw : List Char),
        classifyEvent ms dt raw = (true, false, false) →
        processSummary ms dt raw
          = SYM_HOLYDAY ++ ' ' :: strip_existing_symbols (pyStrip raw)) := by
  refine ⟨?_, rfl, ?_, ?_⟩
  · intro h f a
    cases h <;> cases f <;> cases a <;> rfl
  · intro ms dt raw hne
    simp only [processSummary]
    rw [if_neg hne]
  · intro ms dt raw h
    simp only [processSummary, h]
    rfl

end Overlay

namespace Overlay

theorem nextWeekdayOffset_eq (w dn : Nat) :
    nextWeekdayOffset w dn = (w % 7 + 7 - weekdayDN dn) % 7 := by
  rw [nextWeekdayOffset, Nat.find_eq_iff]
  constructor
  · simp only [weekdayDN]; omega
  · intro n hn
    simp only [weekdayDN] at hn ⊢
    omega

theorem card_clusters (a b c d : ℕ) (h1 : b + 3 < c) (h2 : c + 3 < d) (h3 : d + 3 < a) :
    (({a, a + 2, a + 3} : Finset ℕ) ∪ {b, b + 2, b + 3} ∪ {c, c + 2, c + 3}
      ∪ {d, d + 2, d + 3}).card = 12 := by
  have d1 : Disjoint (({a, a + 2, a + 3} : Finset ℕ)) ({b, b + 2, b + 3} : Finset ℕ) := by
    rw [Finset.disjoint_left]
    intro x hx hx2
    simp only [Finset.mem_insert, Finset.mem_singleton] at hx hx2
    omega
  have d2 : Disjoint (({a, a + 2, a + 3} : Finset ℕ) ∪ {b, b + 2, b + 3})
      ({c, c + 2, c + 3} : Finset ℕ) := by
    rw [Finset.disjoint_left]
    intro x hx hx2
    simp only [Finset.mem_union, Finset.mem_insert, Finset.mem_singleton] at hx hx2
    omega
  have d3 : Disjoint (({a, a + 2, a + 3} : Finset ℕ) ∪ {b, b + 2, b + 3} ∪ {c, c + 2, c + 3})
      ({d, d + 2, d + 3} : Finset ℕ) := by
    rw [Finset.disjoint_left]
    intro x hx hx2
    simp only [Finset.mem_union, Finset.mem_insert, Finset.mem_singleton] at hx hx2
    omega
  rw [Finset.card_union_of_disjoint d3, Finset.card_union_of_disjoint d2,
    Finset.card_union_of_disjoint d1,
    card_triple a (a + 2) (a + 3) (by omega) (by omega) (by omega),
    card_triple b (b + 2) (b + 3) (by omega) (by omega) (by omega),
    card_triple c (c + 2) (c + 3) (by omega) (by omega) (by omega),
    card_triple d (d + 2) (d + 3) (by omega) (by omega) (by omega)]

/-- C5: the ember-day set of any year consists of exactly the four
Wednesday–Friday–Saturday clusters described by the spec (Advent, Lent,
Pentecost, September), and its twelve dates are pairwise distinct, so the
set always has exactly 12 elements. -/
theorem c5_ember_days (y : Nat) :
    ember_days y = emberSpec y ∧ (ember_days y).card = 12 := by
  have hd13 := toDN_fixed y 12 13 334 rfl rfl
  have hs1 := toDN_fixed y 9 1 243 rfl rfl
  have he := easterDN_eq y
  have hv := V_bounds y
  have hL : (if isLeap y then 1 else 0) ≤ 1 := by split <;> omega
  have ha : ash_wednesday y = easterDN y - 46 := rfl
  have hpp : pentecost_sunday y = easterDN y + 49 := rfl
  have hw1 : (9 - weekdayDN (toDN ⟨y, 12, 13⟩)) % 7 < 7 := Nat.mod_lt _ (by norm_num)
  have hw2 : (13 - weekdayDN (ash_wednesday y)) % 7 < 7 := Nat.mod_lt _ (by norm_num)
  have hw3 : (13 - weekdayDN (toDN ⟨y, 9, 1⟩)) % 7 < 7 := Nat.mod_lt _ (by norm_num)
  have hb2 : weekdayDN (ash_wednesday y) < 7 := Nat.mod_lt _ (by norm_num)
  constructor
  · simp only [ember_days, emberSpec]
    have h1 : nextWeekdayOffset 2 (toDN ⟨y, 12, 13⟩)
        = (9 - weekdayDN (toDN ⟨y, 12, 13⟩)) % 7 := by
      rw [nextWeekdayOffset_eq]
    have h2 : ((6 - (weekdayDN (ash_wednesday y) : Int)) % 7).toNat
        = (13 - weekdayDN (ash_wednesday y)) % 7 := by
      omega
    have h3 : nextWeekdayOffset 6 (toDN ⟨y, 9, 1⟩)
        = (13 - weekdayDN (toDN ⟨y, 9, 1⟩)) % 7 := by
      rw [nextWeekdayOffset_eq]
    rw [h1, h2, h3]
  · simp only [ember_days]
    exact card_clusters _ _ _ _ (by omega) (by omega) (by omega)

end Overlay


namespace Overlay

/-! ### String-layer lemmas -/

theorem stripR_nil : stripR [] = [] := rfl

theorem stripR_cons (c : Char) (l : List Char) :
    stripR (c :: l) = match stripR l with
      | [] => if isPySpace c then [] else [c]
      | r => c :: r := rfl

theorem stripR_shape (c : Char) (l : List Char) :
    stripR (c :: l) = [] ∨ ∃ r, stripR (c :: l) = c :: r := by
  cases h : stripR l with
  | nil =>
    by_cases hc : isPySpace c
    · left; rw [stripR_cons, h]; simp [hc]
    · right; exact ⟨[], by rw [stripR_cons, h]; simp [hc]⟩
  | cons a as =>
    right; exact ⟨a :: as, by rw [stripR_cons, h]⟩

theorem stripR_lastNot (l : List Char) : lastNotSpace (stripR l) = true := by
  induction l with
  | nil => rfl
  | cons c rest ih =>
    cases h : stripR rest with
    | nil =>
      rw [stripR_cons, h]
      by_cases hc : isPySpace c
      · simp [hc, lastNotSpace]
      · simp [hc, lastNotSpace]
    | cons a as =>
      rw [h] at ih
      rw [stripR_cons, h]
      simpa [lastNotSpace] using ih

theorem stripR_eq_self (l : List Char) (h : lastNotSpace l = true) : stripR l = l := by
  induction l with
  | nil => rfl
  | cons c rest ih =>
    cases rest with
    | nil =>
      simp only [lastNotSpace, Bool.not_eq_true'] at h
      rw [stripR_cons, stripR_nil]
      simp [h]
    | cons b bs =>
      have hb : lastNotSpace (b :: bs) = true := by
        simpa [lastNotSpace] using h
      rw [stripR_cons, ih hb]

theorem stripR_append (xs l : List Char) :
    stripR (xs ++ l) = if stripR l = [] then stripR xs else xs ++ stripR l := by
  induction xs with
  | nil =>
    by_cases h : stripR l = [] <;> simp [h, stripR_nil]
  | cons x xs ih =>
    by_cases h : stripR l = []
    · rw [if_pos h] at ih
      rw [List.cons_append, if_pos h, stripR_cons, ih, stripR_cons]
    · rw [if_neg h] at ih
      rw [List.cons_append, if_neg h]
      have hne : xs ++ stripR l ≠ [] := by
        intro hc
        rcases List.append_eq_nil.mp hc with ⟨-, h2⟩
        exact h h2
      obtain ⟨hd, tl, hE⟩ := List.exists_cons_of_ne_nil hne
      rw [stripR_cons, ih, hE]
      rw [List.cons_append, hE]

theorem dropWhile_eq_self (l : List Char)
    (h : ∀ c cs, l = c :: cs → isPySpace c = false) :
    l.dropWhile isPySpace = l := by
  cases l with
  | nil => rfl
  | cons c cs => simp [List.dropWhile_cons, h c cs rfl]

theorem headFree_head (c : Char) (l : List Char)
    (h : headTokenFree (c :: l) = true) : isPySpace c = false := by
  simp only [headTokenFree, Bool.and_eq_true, Bool.not_eq_true'] at h
  exact h.1.1.1

theorem dropTokens_headFree (l : List Char) : headTokenFree (dropTokens l) = true := by
  induction l using dropTokens.induct with
  | case1 rest ih => exact ih
  | case2 rest ih => exact ih
  | case3 rest ih => exact ih
  | case4 c rest x2 x1 x0 hsp ih =>
    have hred : dropTokens (c :: rest) = dropTokens rest := by
      rw [dropTokens.eq_def]
      split
      · rename_i rest' heq
        injection heq with e1 e2
        exact (x2 rest' e1 e2).elim
      · rename_i heq
        injection heq with e1 e2
        exact absurd e1 x1
      · rename_i heq
        injection heq with e1 e2
        exact absurd e1 x0
      · rename_i c' rest' heq
        injection heq with e1 e2
        subst e1; subst e2
        rw [if_pos hsp]
      · simp at *
    rw [hred]
    exact ih
  | case5 c rest x2 x1 x0 hsp =>
    have hred : dropTokens (c :: rest) = c :: rest := by
      rw [dropTokens.eq_def]
      split
      · rename_i rest' heq
        injection heq with e1 e2
        exact (x2 rest' e1 e2).elim
      · rename_i heq
        injection heq with e1 e2
        exact absurd e1 x1
      · rename_i heq
        injection heq with e1 e2
        exact absurd e1 x0
      · rename_i c' rest' heq
        injection heq with e1 e2
        subst e1; subst e2
        rw [if_neg hsp]
      · simp at *
    rw [hred]
    simp only [headTokenFree, Bool.and_eq_true, Bool.not_eq_true']
    have hsp' : isPySpace c = false := by simpa using hsp
    refine ⟨⟨⟨hsp', ?_⟩, ?_⟩, ?_⟩
    · simp only [beq_eq_false_iff_ne, ne_eq]
      intro hc; exact x1 hc
    · simp only [beq_eq_false_iff_ne, ne_eq]
      intro hc; exact x0 hc
    · rw [Bool.and_eq_false_iff]
      by_cases hc : c = '✝'
      · right
        cases rest with
        | nil => rfl
        | cons r0 rs =>
          simp only [headIsFE0F, beq_eq_false_iff_ne, ne_eq]
          intro hr
          exact x2 rs hc (by rw [hr])
      · left
        simpa using hc
  | case6 => rfl

theorem headFree_dropTokens_eq (l : List Char) (h : headTokenFree l = true) :
    dropTokens l = l := by
  cases l with
  | nil => rfl
  | cons c rest =>
    simp only [headTokenFree, Bool.and_eq_true, Bool.not_eq_true'] at h
    obtain ⟨⟨⟨hsp, hb1⟩, hb2⟩, hb3⟩ := h
    rw [dropTokens.eq_def]
    split
    · rename_i rest' heq
      injection heq with e1 e2
      exfalso
      rw [e1, e2] at hb3
      simp [headIsFE0F] at hb3
    · rename_i heq
      injection heq with e1 e2
      exfalso; rw [e1] at hb1; simp at hb1
    · rename_i heq
      injection heq with e1 e2
      exfalso; rw [e1] at hb2; simp at hb2
    · rename_i c' rest' heq
      injection heq with e1 e2
      subst e1; subst e2
      rw [if_neg (by simp [hsp])]
    · simp at *

theorem stripR_headFree (l : List Char) (h : headTokenFree l = true) :
    headTokenFree (stripR l) = true := by
  cases l with
  | nil => rfl
  | cons c rest =>
    simp only [headTokenFree, Bool.and_eq_true, Bool.not_eq_true'] at h
    obtain ⟨⟨⟨hsp, hb1⟩, hb2⟩, hb3⟩ := h
    cases h2 : stripR rest with
    | nil =>
      rw [stripR_cons, h2]
      by_cases hc : isPySpace c
      · simp only [hc, if_true]
        rfl
      · have hc' : isPySpace c = false := by simpa using hc
        simp [hc', headTokenFree, headIsFE0F, hb1, hb2]
    | cons a as =>
      rw [stripR_cons, h2]
      simp only [headTokenFree, Bool.and_eq_true, Bool.not_eq_true']
      refine ⟨⟨⟨hsp, hb1⟩, hb2⟩, ?_⟩
      rw [Bool.and_eq_false_iff] at hb3 ⊢
      rcases hb3 with hb3 | hb3
      · left; exact hb3
      · right
        cases rest with
        | nil => rw [stripR_nil] at h2; exact absurd h2 (by simp)
        | cons b bs =>
          rcases stripR_shape b bs with hs | ⟨r, hs⟩
          · rw [hs] at h2; exact absurd h2 (by simp)
          · rw [hs] at h2
            injection h2 with e1 e2
            simp only [headIsFE0F] at hb3 ⊢
            rw [← e1]
            exact hb3

end Overlay

namespace Overlay

theorem dropTokens_space (r : List Char) : dropTokens (' ' :: r) = dropTokens r := rfl

theorem strip_clean (s : List Char) :
    headTokenFree (strip_existing_symbols s) = true
    ∧ lastNotSpace (strip_existing_symbols s) = true := by
  constructor
  · have hu := dropTokens_headFree (pyStrip s)
    have hdw : (dropTokens (pyStrip s)).dropWhile isPySpace = dropTokens (pyStrip s) := by
      apply dropWhile_eq_self
      intro c cs hE
      rw [hE] at hu
      exact headFree_head c cs hu
    show headTokenFree (stripR ((dropTokens (pyStrip s)).dropWhile isPySpace)) = true
    rw [hdw]
    exact stripR_headFree _ hu
  · exact stripR_lastNot _

theorem clean_pyStrip_eq (B : List Char) (h1 : headTokenFree B = true)
    (h2 : lastNotSpace B = true) : pyStrip B = B := by
  have hdw : B.dropWhile isPySpace = B := by
    apply dropWhile_eq_self
    intro c cs hE
    rw [hE] at h1
    exact headFree_head c cs h1
  show stripR (B.dropWhile isPySpace) = B
  rw [hdw]
  exact stripR_eq_self B h2

theorem clean_strip_fix (B : List Char) (h1 : headTokenFree B = true)
    (h2 : lastNotSpace B = true) :
    strip_existing_symbols (pyStrip B) = B := by
  rw [clean_pyStrip_eq B h1 h2]
  show pyStrip (dropTokens (pyStrip B)) = B
  rw [clean_pyStrip_eq B h1 h2, headFree_dropTokens_eq B h1, clean_pyStrip_eq B h1 h2]

theorem strip_token_prefixed (p0 : Char) (prest B : List Char)
    (hp0 : isPySpace p0 = false)
    (hlast : lastNotSpace (p0 :: prest) = true)
    (hdrop : ∀ r, dropTokens ((p0 :: prest) ++ r) = dropTokens r)
    (h1 : headTokenFree B = true) (h2 : lastNotSpace B = true) :
    strip_existing_symbols (pyStrip ((p0 :: prest) ++ ' ' :: B)) = B := by
  have hdw : ((p0 :: prest) ++ ' ' :: B).dropWhile isPySpace = (p0 :: prest) ++ ' ' :: B := by
    apply dropWhile_eq_self
    intro c cs hE
    rw [List.cons_append] at hE
    injection hE with e1 _
    rw [← e1]
    exact hp0
  have hstripX : pyStrip ((p0 :: prest) ++ ' ' :: B) = if B = [] then p0 :: prest
      else (p0 :: prest) ++ ' ' :: B := by
    simp only [pyStrip, hdw]
    rw [stripR_append]
    cases B with
    | nil =>
      rw [if_pos rfl]
      have hsp : stripR ([' '] : List Char) = [] := rfl
      rw [if_pos hsp]
      exact stripR_eq_self _ hlast
    | cons b0 bs =>
      have hBB : stripR (b0 :: bs) = b0 :: bs := stripR_eq_self _ h2
      have hsb : stripR (' ' :: b0 :: bs) = ' ' :: b0 :: bs := by
        rw [stripR_cons, hBB]
      rw [if_neg (by simp [hsb]), hsb]
      simp
  by_cases hB : B = []
  · subst hB
    rw [hstripX, if_pos rfl]
    show pyStrip (dropTokens (pyStrip (p0 :: prest))) = []
    have hP : pyStrip (p0 :: prest) = p0 :: prest := by
      have hdwp : (p0 :: prest).dropWhile isPySpace = p0 :: prest := by
        apply dropWhile_eq_self
        intro c cs hE
        injection hE with e1 _
        rw [← e1]
        exact hp0
      simp only [pyStrip, hdwp]
      exact stripR_eq_self _ hlast
    rw [hP]
    have : dropTokens (p0 :: prest) = [] := by
      have := hdrop []
      simpa using this
    rw [this]
    rfl
  · rw [hstripX, if_neg hB]
    show pyStrip (dropTokens (pyStrip ((p0 :: prest) ++ ' ' :: B))) = B
    rw [hstripX, if_neg hB, hdrop (' ' :: B), dropTokens_space,
      headFree_dropTokens_eq B h1]
    exact clean_pyStrip_eq B h1 h2

theorem strip_prefixed_flags (h f a : Bool) (B : List Char)
    (h1 : headTokenFree B = true) (h2 : lastNotSpace B = true) :
    strip_existing_symbols (pyStrip (if build_prefix h f a = [] then B
      else build_prefix h f a ++ ' ' :: B)) = B := by
  cases h <;> cases f <;> cases a
  · have hc : build_prefix false false false = [] := rfl
    rw [if_pos hc]
    exact clean_strip_fix B h1 h2
  · have hc : build_prefix false false true = ['🐟'] := rfl
    rw [hc, if_neg (by decide)]
    exact strip_token_prefixed '🐟' [] B (by decide) (by decide) (fun r => rfl) h1 h2
  · have hc : build_prefix false true false = ['⛔'] := rfl
    rw [hc, if_neg (by decide)]
    exact strip_token_prefixed '⛔' [] B (by decide) (by decide) (fun r => rfl) h1 h2
  · have hc : build_prefix false true true = ['⛔', '🐟'] := rfl
    rw [hc, if_neg (by decide)]
    exact strip_token_prefixed '⛔' ['🐟'] B (by decide) (by decide) (fun r => rfl) h1 h2
  · have hc : build_prefix true false false = ['✝', '\uFE0F'] := rfl
    rw [hc, if_neg (by decide)]
    exact strip_token_prefixed '✝' ['\uFE0F'] B (by decide) (by decide) (fun r => rfl) h1 h2
  · have hc : build_prefix true false true = ['✝', '\uFE0F', '🐟'] := rfl
    rw [hc, if_neg (by decide)]
    exact strip_token_prefixed '✝' ['\uFE0F', '🐟'] B (by decide) (by decide) (fun r => rfl) h1 h2
  · have hc : build_prefix true true false = ['✝', '\uFE0F', '⛔'] := rfl
    rw [hc, if_neg (by decide)]
    exact strip_token_prefixed '✝' ['\uFE0F', '⛔'] B (by decide) (by decide) (fun r => rfl) h1 h2
  · have hc : build_prefix true true true = ['✝', '\uFE0F', '⛔', '🐟'] := rfl
    rw [hc, if_neg (by decide)]
    exact strip_token_prefixed '✝' ['\uFE0F', '⛔', '🐟'] B (by decide) (by decide) (fun r => rfl) h1 h2

theorem strip_processSummary (ms : Bool) (dt : Date) (raw : List Char) :
    strip_existing_symbols (pyStrip (processSummary ms dt raw))
      = strip_existing_symbols (pyStrip raw) := by
  have hc := strip_clean (pyStrip raw)
  exact strip_prefixed_flags (classifyEvent ms dt raw).1 (classifyEvent ms dt raw).2.1
    (classifyEvent ms dt raw).2.2 (strip_existing_symbols (pyStrip raw)) hc.1 hc.2

/-- C8: classification is idempotent through the title rewrite: re-running
normalization, classification, and rewriting on an already rewritten title
yields the same flag triple and the same title, because the normalization
strips the emitted marker symbols again before holy-day matching. -/
theorem c8_classify_idempotent (ms : Bool) (dt : Date) (raw : List Char) :
    classifyEvent ms dt (processSummary ms dt raw) = classifyEvent ms dt raw
    ∧ processSummary ms dt (processSummary ms dt raw) = processSummary ms dt raw := by
  have hM := strip_processSummary ms dt raw
  have hfac : ∀ r : List Char, classifyEvent ms dt r =
      (fun B : List Char =>
        (let mk := (collapseWs (pyStrip (lstripMarks B))).map Char.toLower
         let ih : Bool := decide (mk ∈ HOLY_DAYS_1962_TITLES)
         let ih2 := if ms && is_sunday dt then true else ih
         let fa := penitential_marks dt
         (ih2, if ih2 then false else fa.1, if ih2 then false else fa.2)))
        (strip_existing_symbols (pyStrip r)) := fun r => rfl
  have hcg := congrArg (fun B : List Char =>
        (let mk := (collapseWs (pyStrip (lstripMarks B))).map Char.toLower
         let ih : Bool := decide (mk ∈ HOLY_DAYS_1962_TITLES)
         let ih2 := if ms && is_sunday dt then true else ih
         let fa := penitential_marks dt
         (ih2, if ih2 then false else fa.1, if ih2 then false else fa.2))) hM
  have hcl : classifyEvent ms dt (processSummary ms dt raw) = classifyEvent ms dt raw :=
    (hfac (processSummary ms dt raw)).trans (hcg.trans (hfac raw).symm)
  refine ⟨hcl, ?_⟩
  have hexp : ∀ r, processSummary ms dt r
      = (if build_prefix (classifyEvent ms dt r).1 (classifyEvent ms dt r).2.1
            (classifyEvent ms dt r).2.2 = []
         then strip_existing_symbols (pyStrip r)
         else build_prefix (classifyEvent ms dt r).1 (classifyEvent ms dt r).2.1
            (classifyEvent ms dt r).2.2 ++ ' ' :: strip_existing_symbols (pyStrip r)) :=
    fun r => rfl
  rw [hexp (processSummary ms dt raw), hcl, hM, ← hexp raw]

end Overlay

namespace Overlay

/-! ### Witnesses -/

theorem c1_easter_window_witness :
    1900 ≤ 2024 ∧ 2024 ≤ 2100
    ∧ ((easter_gregorian 2024).year = 2024
       ∧ (((easter_gregorian 2024).month = 3 ∧ 22 ≤ (easter_gregorian 2024).day)
          ∨ ((easter_gregorian 2024).month = 4 ∧ (easter_gregorian 2024).day ≤ 25))
       ∧ weekdayDN (toDN (easter_gregorian 2024)) = 6) :=
  ⟨by decide, by decide, c1_easter_window 2024 (by decide) (by decide)⟩

theorem c3_holy_day_precedence_witness :
    (classifyEvent false ⟨2024, 12, 25⟩ ("Christmas".toList)).1 = true
    ∧ ((classifyEvent false ⟨2024, 12, 25⟩ ("Christmas".toList)).2.1 = false
       ∧ (classifyEvent false ⟨2024, 12, 25⟩ ("Christmas".toList)).2.2 = false) :=
  ⟨by decide,
   c3_holy_day_precedence false ⟨2024, 12, 25⟩ ("Christmas".toList) (by decide)⟩

theorem c4_marks_or_combination_witness :
    penitential_marks ⟨2024, 3, 29⟩ = marksSpec ⟨2024, 3, 29⟩
    ∧ (is_friday ⟨2024, 3, 29⟩ = true ∧ (penitential_marks ⟨2024, 3, 29⟩).2 = true)
    ∧ ((classifyEvent false ⟨2024, 3, 29⟩ []).1 = false
       ∧ (classifyEvent false ⟨2024, 3, 29⟩ []).2.2 = true) :=
  ⟨(c4_marks_or_combination ⟨2024, 3, 29⟩).1,
   ⟨by decide, (c4_marks_or_combination ⟨2024, 3, 29⟩).2.1 (by decide)⟩,
   ⟨by decide, (c4_marks_or_combination ⟨2024, 3, 29⟩).2.2 false [] (by decide) (by decide)⟩⟩

theorem c6_vigils_witness :
    1 ≤ 2024 ∧ ((vigil_days 2024).card = 5 ∧ weekdayDN (pentecost_sunday 2024 - 1) = 5) :=
  ⟨by decide, (c6_vigils 2024 (by decide)).2⟩

theorem c7_easter_always_valid_witness :
    1 ≤ 2024
    ∧ (((easter_gregorian 2024).month = 3 ∨ (easter_gregorian 2024).month = 4)
       ∧ (easter_gregorian 2024).valid) :=
  ⟨by decide, c7_easter_always_valid 2024 (by decide)⟩

theorem c9_prefix_rendering_witness :
    classifyEvent false ⟨2024, 12, 25⟩ ("Christmas".toList) = (true, false, false)
    ∧ processSummary false ⟨2024, 12, 25⟩ ("Christmas".toList)
      = SYM_HOLYDAY ++ ' ' :: strip_existing_symbols (pyStrip ("Christmas".toList)) :=
  ⟨by decide,
   c9_prefix_rendering.2.2.2 false ⟨2024, 12, 25⟩ ("Christmas".toList) (by decide)⟩

theorem c10_fast_implies_abstinence_witness :
    ((penitential_marks ⟨2024, 2, 14⟩).1 = true ∧ (penitential_marks ⟨2024, 2, 14⟩).2 = true)
    ∧ ((classifyEvent false ⟨2024, 2, 14⟩ []).2.1 = true
       ∧ (classifyEvent false ⟨2024, 2, 14⟩ []).2.2 = true) :=
  ⟨⟨by decide, (c10_fast_implies_abstinence false ⟨2024, 2, 14⟩ []).1 (by decide)⟩,
   ⟨by decide, (c10_fast_implies_abstinence false ⟨2024, 2, 14⟩ []).2 (by decide)⟩⟩

end Overlay
